import Mathlib

/-!
Verification of the McGinley Dynamic indicator `mcgd` from
`pandas_ta/overlap/mcgd.py`.

The numeric values flowing through the pipeline are IEEE-style doubles.
We model them as exact rationals extended with the two infinities and a
not-a-number element (`PyFloat`), with the arithmetic on non-finite values
following the IEEE conventions that numpy float64 arithmetic obeys
(division of a nonzero finite value by zero yields a signed infinity,
`0/0` yields NaN, a finite value divided by an infinity yields zero, and
NaN absorbs every operation).  Rounding of finite values is idealised to
exact rational arithmetic.

The pandas operations the source delegates to (`rolling(2,
min_periods=2).apply(..., raw=True)`, `append`, `shift`, `fillna`) are
modelled on lists per their documented behaviour, which is also how the
specification describes them: the rolling window presented to `mcg_` at
index `i >= 1` holds the raw adjacent input pair, the window is private
to that application, and the cell at index 0 is NaN because the window is
incomplete.  `verify_series` and `get_offset` live in `pandas_ta.utils`,
which is not part of the sources at hand; they are modelled from the
specification where marked.
-/

/-- A numpy float64 value, idealised: an exact rational, one of the two
infinities, or NaN. -/
inductive PyFloat where
  | fin (q : ℚ)
  | inf
  | neginf
  | nan
deriving DecidableEq

namespace PyFloat

/-- IEEE negation. -/
def neg : PyFloat → PyFloat
  | fin q => fin (-q)
  | inf => neginf
  | neginf => inf
  | nan => nan

/-- IEEE addition: `inf + (-inf)` is NaN, NaN absorbs. -/
def add : PyFloat → PyFloat → PyFloat
  | fin a, fin b => fin (a + b)
  | fin _, inf => inf
  | fin _, neginf => neginf
  | inf, fin _ => inf
  | inf, inf => inf
  | neginf, fin _ => neginf
  | neginf, neginf => neginf
  | _, _ => nan

/-- IEEE subtraction, via negation. -/
def sub (x y : PyFloat) : PyFloat := add x (neg y)

/-- IEEE multiplication: an infinity times zero is NaN, NaN absorbs. -/
def mul : PyFloat → PyFloat → PyFloat
  | fin a, fin b => fin (a * b)
  | fin a, inf => if 0 < a then inf else if a < 0 then neginf else nan
  | fin a, neginf => if 0 < a then neginf else if a < 0 then inf else nan
  | inf, fin b => if 0 < b then inf else if b < 0 then neginf else nan
  | neginf, fin b => if 0 < b then neginf else if b < 0 then inf else nan
  | inf, inf => inf
  | inf, neginf => neginf
  | neginf, inf => neginf
  | neginf, neginf => inf
  | _, _ => nan

/-- IEEE division: a nonzero finite value over zero is a signed infinity
(numpy's zero is `+0`), `0/0` is NaN, finite over infinite is zero,
infinite over infinite is NaN, NaN absorbs. -/
def div : PyFloat → PyFloat → PyFloat
  | fin a, fin b =>
      if b = 0 then (if 0 < a then inf else if a < 0 then neginf else nan)
      else fin (a / b)
  | fin _, inf => fin 0
  | fin _, neginf => fin 0
  | inf, fin b => if 0 ≤ b then inf else neginf
  | neginf, fin b => if 0 ≤ b then neginf else inf
  | _, _ => nan

/-- The fourth power, as iterated IEEE multiplication (the behaviour of
numpy's `** 4` on these values). -/
def pow4 (x : PyFloat) : PyFloat := mul (mul (mul x x) x) x

/-- A value is finite when it is a rational, i.e. neither infinite nor NaN. -/
def isFinite : PyFloat → Bool
  | fin _ => true
  | _ => false

end PyFloat

/-- The rolling window function of the source:

```
def mcg_(series):
    denom = (c * length * (series[1] / series[0]) ** 4)
    series[1] = (series[0] + ((series[1] - series[0]) / denom))
    return series[1]
```

The window is a two-cell array; the function overwrites cell 1 and
returns the value read back from it.  We model it as a function from the
window state to the updated window state paired with the returned value. -/
def mcg_ (c : ℚ) (length : ℕ) (series : PyFloat × PyFloat) :
    (PyFloat × PyFloat) × PyFloat :=
  let denom := PyFloat.mul (PyFloat.mul (PyFloat.fin c) (PyFloat.fin (length : ℚ)))
    (PyFloat.pow4 (PyFloat.div series.2 series.1))
  let series := (series.1, PyFloat.add series.1 (PyFloat.div (PyFloat.sub series.2 series.1) denom))
  (series, series.2)

/-- The value `mcg_` returns on the window `(a, b)`. -/
def mcgVal (c : ℚ) (length : ℕ) (a b : PyFloat) : PyFloat :=
  (mcg_ c length (a, b)).2

/-- The values produced by `rolling(2, min_periods=2).apply(mcg_, raw=True)`
at indices `1, 2, ...`: each complete window holds the raw adjacent pair of
input values and is private to its application, so the cell at index `i`
is `mcg_` of `(input[i-1], input[i])`. -/
def mcgWindows (c : ℚ) (length : ℕ) : PyFloat → List PyFloat → List PyFloat
  | _, [] => []
  | prev, y :: ys => mcgVal c length prev y :: mcgWindows c length y ys

/-- `mcg_cell = close[0:].rolling(2, min_periods=2).apply(mcg_, raw=True)`:
the cell at index 0 is NaN (incomplete window), the rest are the window
values. -/
def rollingMcg (c : ℚ) (length : ℕ) : List PyFloat → List PyFloat
  | [] => []
  | x :: xs => PyFloat.nan :: mcgWindows c length x xs

/-- `mcg_ds = close[:1].append(mcg_cell[1:])`: the first input value
followed by the rolling cells from index 1 on. -/
def mcgdCore (c : ℚ) (length : ℕ) (close : List PyFloat) : List PyFloat :=
  close.take 1 ++ (rollingMcg c length close).drop 1

lemma PyFloat.add_fin_fin (a b : ℚ) : PyFloat.add (.fin a) (.fin b) = .fin (a + b) := rfl

lemma PyFloat.mul_fin_fin (a b : ℚ) : PyFloat.mul (.fin a) (.fin b) = .fin (a * b) := rfl

lemma PyFloat.sub_fin_fin (a b : ℚ) :
    PyFloat.sub (.fin a) (.fin b) = .fin (a - b) := by
  simp [PyFloat.sub, PyFloat.neg, PyFloat.add_fin_fin, sub_eq_add_neg]

lemma PyFloat.div_fin_fin (a b : ℚ) (hb : b ≠ 0) :
    PyFloat.div (.fin a) (.fin b) = .fin (a / b) := by
  simp [PyFloat.div, hb]

lemma PyFloat.pow4_fin (a : ℚ) : PyFloat.pow4 (.fin a) = .fin (a ^ 4) := by
  simp [PyFloat.pow4, PyFloat.mul_fin_fin]
  ring

/-- On a window of nonzero finite values with valid parameters, `mcg_`
returns exactly the rational value of the specified formula. -/
lemma mcgVal_fin (c : ℚ) (l : ℕ) (a b : ℚ) (hc : 0 < c) (hl : 0 < l)
    (ha : a ≠ 0) (hb : b ≠ 0) :
    mcgVal c l (.fin a) (.fin b) = .fin (a + (b - a) / (c * l * (b / a) ^ 4)) := by
  have hba : b / a ≠ 0 := div_ne_zero hb ha
  have hlq : (l : ℚ) ≠ 0 := Nat.cast_ne_zero.mpr hl.ne'
  have hdenom : c * l * (b / a) ^ 4 ≠ 0 :=
    mul_ne_zero (mul_ne_zero hc.ne' hlq) (pow_ne_zero 4 hba)
  simp only [mcgVal, mcg_, PyFloat.div_fin_fin b a ha, PyFloat.pow4_fin,
    PyFloat.mul_fin_fin, PyFloat.sub_fin_fin,
    PyFloat.div_fin_fin (b - a) _ hdenom, PyFloat.add_fin_fin]

lemma mcgdCore_three (c : ℚ) (l : ℕ) (x y z : PyFloat) :
    mcgdCore c l [x, y, z] = [x, mcgVal c l x y, mcgVal c l y z] := rfl

/-- `length = int(length) if length and length > 0 else 10`: an absent,
zero or negative length falls back to 10. -/
def validateLength : Option ℤ → ℕ
  | some l => if 0 < l then l.toNat else 10
  | none => 10

/-- `c = float(c) if c and 0 < c <= 1 else 1`: an absent or zero `c`, or
one outside the half-open interval from 0 to 1, falls back to 1. -/
def validateC : Option ℚ → ℚ
  | some x => if 0 < x ∧ x ≤ 1 then x else 1
  | none => 1

/-- Modelled from the spec: `verify_series` (in `pandas_ta.utils`, not among
the sources at hand) hands the sequence through when it holds at least
`length` elements and otherwise yields nothing. -/
def verify_series (close : List PyFloat) (length : ℕ) : Option (List PyFloat) :=
  if length ≤ close.length then some close else none

/-- Modelled from the spec: `get_offset` (in `pandas_ta.utils`, not among
the sources at hand) coerces an absent offset to the default 0. -/
def get_offset : Option ℤ → ℤ
  | some k => k
  | none => 0

/-- `Series.shift(k)` on a float series: same length, position `i` holds
the value from position `i - k` when that exists and NaN otherwise
(leading gaps for a positive `k`, trailing gaps for a negative one). -/
def shiftList (k : ℤ) (xs : List PyFloat) : List PyFloat :=
  (List.range xs.length).map fun i : ℕ =>
    if (i : ℤ) - k < 0 then PyFloat.nan
    else xs.getD ((i : ℤ) - k).toNat PyFloat.nan

/-- `fillna(value)`: every NaN cell is replaced by the given value. -/
def fillnaValue (v : PyFloat) (xs : List PyFloat) : List PyFloat :=
  xs.map fun x => if x = PyFloat.nan then v else x

/-- The named fill strategies `fillna(method=...)` accepts. -/
inductive FillMethod where
  | ffill
  | bfill
deriving DecidableEq

/-- Forward fill: a NaN cell takes the last preceding non-NaN value, if any. -/
def ffillGo : Option PyFloat → List PyFloat → List PyFloat
  | _, [] => []
  | last, x :: xs =>
    if x = PyFloat.nan then
      (match last with | some v => v | none => PyFloat.nan) :: ffillGo last xs
    else
      x :: ffillGo (some x) xs

/-- `fillna(method)` on a float series. -/
def applyFillMethod : FillMethod → List PyFloat → List PyFloat
  | .ffill, xs => ffillGo none xs
  | .bfill, xs => (ffillGo none xs.reverse).reverse

/-- The keyword arguments `mcgd` consults. -/
structure McgdKwargs where
  fillna : Option PyFloat
  fill_method : Option FillMethod

/-- No keyword arguments. -/
def noKwargs : McgdKwargs := ⟨none, none⟩

/-- `if offset != 0: mcg_ds = mcg_ds.shift(offset)`. -/
def applyOffset (off : ℤ) (xs : List PyFloat) : List PyFloat :=
  if off ≠ 0 then shiftList off xs else xs

/-- `if "fillna" in kwargs: mcg_ds.fillna(kwargs["fillna"], inplace=True)`. -/
def applyFillna (o : Option PyFloat) (xs : List PyFloat) : List PyFloat :=
  match o with
  | some v => fillnaValue v xs
  | none => xs

/-- `if "fill_method" in kwargs: mcg_ds.fillna(method=..., inplace=True)`. -/
def applyFillMethodOpt (o : Option FillMethod) (xs : List PyFloat) : List PyFloat :=
  match o with
  | some m => applyFillMethod m xs
  | none => xs

/-- The full `mcgd` pipeline of the source: validate `length` and `c`,
sanitize the input, compute the core, then apply the offset shift and the
fill options.  Returns nothing when the sanitizer yields no series. -/
def mcgd (close : List PyFloat) (length : Option ℤ) (offset : Option ℤ)
    (c : Option ℚ) (kw : McgdKwargs) : Option (List PyFloat) :=
  let l := validateLength length
  let cv := validateC c
  match verify_series close l with
  | none => none
  | some close =>
    let off := get_offset offset
    some (applyFillMethodOpt kw.fill_method
      (applyFillna kw.fillna (applyOffset off (mcgdCore cv l close))))

/-- Explicit-state model of a call: the caller's series is a buffer the
pipeline may only read; `close = close.copy()` allocates the separate work
buffer that the rolling windows (each of which `mcg_` overwrites) are
drawn from.  The result is the pipeline's output paired with the caller's
buffer as it stands after the call. -/
def copyBuffer (xs : List PyFloat) : List PyFloat := xs.map id

def mcgdCall (close : List PyFloat) (length : Option ℤ) (offset : Option ℤ)
    (c : Option ℚ) (kw : McgdKwargs) : Option (List PyFloat) × List PyFloat :=
  let callerBuffer := close
  let workBuffer := copyBuffer close
  (mcgd workBuffer length offset c kw, callerBuffer)

lemma mcgdCore_nil (c : ℚ) (l : ℕ) : mcgdCore c l [] = [] := rfl

lemma mcgdCore_cons (c : ℚ) (l : ℕ) (x : PyFloat) (xs : List PyFloat) :
    mcgdCore c l (x :: xs) = x :: mcgWindows c l x xs := rfl

lemma mcgWindows_length (c : ℚ) (l : ℕ) (prev : PyFloat) (xs : List PyFloat) :
    (mcgWindows c l prev xs).length = xs.length := by
  induction xs generalizing prev with
  | nil => rfl
  | cons y ys ih => simp [mcgWindows, ih]

lemma mcgdCore_length (c : ℚ) (l : ℕ) (xs : List PyFloat) :
    (mcgdCore c l xs).length = xs.length := by
  cases xs with
  | nil => rfl
  | cons x xs => simp [mcgdCore_cons, mcgWindows_length]

lemma mcgWindows_get? (c : ℚ) (l : ℕ) (prev : PyFloat) (xs : List PyFloat) (i : ℕ) :
    (mcgWindows c l prev xs).get? i =
      Option.map₂ (mcgVal c l) ((prev :: xs).get? i) (xs.get? i) := by
  induction xs generalizing prev i with
  | nil => simp [mcgWindows]
  | cons y ys ih =>
    cases i with
    | zero => simp [mcgWindows]
    | succ j => simpa [mcgWindows] using ih y j

/-- The value of the pipeline at an index `i = j + 1 ≥ 1`: it is present
exactly when the input has both positions `j` and `j + 1`, and then it is
`mcg_` of the raw adjacent input pair at those positions. -/
lemma mcgdCore_get?_succ (c : ℚ) (l : ℕ) (input : List PyFloat) (j : ℕ) :
    (mcgdCore c l input).get? (j + 1) =
      Option.map₂ (mcgVal c l) (input.get? j) (input.get? (j + 1)) := by
  cases input with
  | nil => simp [mcgdCore_nil]
  | cons x xs =>
    cases j with
    | zero =>
      cases xs with
      | nil => simp [mcgdCore_cons, mcgWindows]
      | cons y ys => simp [mcgdCore_cons, mcgWindows]
    | succ j => simpa [mcgdCore_cons] using mcgWindows_get? c l x xs (j + 1)

lemma mcgdCore_get?_zero (c : ℚ) (l : ℕ) (x : PyFloat) (xs : List PyFloat) :
    (mcgdCore c l (x :: xs)).get? 0 = some x := rfl

lemma shiftList_length (k : ℤ) (xs : List PyFloat) :
    (shiftList k xs).length = xs.length := by
  simp only [shiftList, List.length_map, List.length_range]

lemma shiftList_get? (k : ℤ) (xs : List PyFloat) (i : ℕ) (h : i < xs.length) :
    (shiftList k xs).get? i =
      some (if (i : ℤ) - k < 0 then PyFloat.nan
        else xs.getD ((i : ℤ) - k).toNat PyFloat.nan) := by
  simp only [shiftList, List.get?_eq_getElem?, List.getElem?_map]
  rw [List.getElem?_range h]
  rfl

lemma fillnaValue_length (v : PyFloat) (xs : List PyFloat) :
    (fillnaValue v xs).length = xs.length := by
  simp [fillnaValue]

lemma ffillGo_length (last : Option PyFloat) (xs : List PyFloat) :
    (ffillGo last xs).length = xs.length := by
  induction xs generalizing last with
  | nil => rfl
  | cons y ys ih =>
    by_cases hy : y = PyFloat.nan <;> simp [ffillGo, hy, ih]

lemma applyFillMethod_length (m : FillMethod) (xs : List PyFloat) :
    (applyFillMethod m xs).length = xs.length := by
  cases m with
  | ffill => simp [applyFillMethod, ffillGo_length]
  | bfill => simp [applyFillMethod, ffillGo_length]

lemma ffillGo_of_noNaN (last : Option PyFloat) (xs : List PyFloat)
    (h : ∀ x ∈ xs, x ≠ PyFloat.nan) : ffillGo last xs = xs := by
  induction xs generalizing last with
  | nil => rfl
  | cons y ys ih =>
    have hy : y ≠ PyFloat.nan := h y (List.mem_cons_self y ys)
    simp [ffillGo, hy, ih _ fun x hx => h x (List.mem_cons_of_mem y hx)]

lemma applyFillMethod_of_noNaN (m : FillMethod) (xs : List PyFloat)
    (h : ∀ x ∈ xs, x ≠ PyFloat.nan) : applyFillMethod m xs = xs := by
  cases m with
  | ffill => simp [applyFillMethod, ffillGo_of_noNaN none xs h]
  | bfill =>
    have hrev : ∀ x ∈ xs.reverse, x ≠ PyFloat.nan := by
      intro x hx
      exact h x (List.mem_reverse.mp hx)
    simp [applyFillMethod, ffillGo_of_noNaN none xs.reverse hrev]

lemma fillnaValue_noNaN (v : PyFloat) (hv : v ≠ PyFloat.nan) (xs : List PyFloat) :
    ∀ x ∈ fillnaValue v xs, x ≠ PyFloat.nan := by
  intro x hx
  simp only [fillnaValue, List.mem_map] at hx
  obtain ⟨y, -, rfl⟩ := hx
  by_cases hy : y = PyFloat.nan <;> simp [hy, hv]

lemma validateLength_pos (o : Option ℤ) : 0 < validateLength o := by
  cases o with
  | none => simp [validateLength]
  | some l =>
    simp only [validateLength]
    split <;> omega

lemma verify_series_some (close : List PyFloat) (l : ℕ) (h : l ≤ close.length) :
    verify_series close l = some close := by
  simp [verify_series, h]

lemma verify_series_none (close : List PyFloat) (l : ℕ) (h : close.length < l) :
    verify_series close l = none := by
  rw [verify_series, if_neg (by omega)]

lemma mcgd_eq_some (close : List PyFloat) (len off : Option ℤ) (c : Option ℚ)
    (kw : McgdKwargs) (h : validateLength len ≤ close.length) :
    mcgd close len off c kw =
      some (applyFillMethodOpt kw.fill_method (applyFillna kw.fillna
        (applyOffset (get_offset off) (mcgdCore (validateC c) (validateLength len) close)))) := by
  rw [mcgd, verify_series_some close _ h]

lemma mcgd_eq_none (close : List PyFloat) (len off : Option ℤ) (c : Option ℚ)
    (kw : McgdKwargs) (h : close.length < validateLength len) :
    mcgd close len off c kw = none := by
  rw [mcgd, verify_series_none close _ h]

lemma applyOffset_zero (xs : List PyFloat) : applyOffset 0 xs = xs := rfl

lemma applyOffset_length (off : ℤ) (xs : List PyFloat) :
    (applyOffset off xs).length = xs.length := by
  by_cases h : off ≠ 0 <;> simp [applyOffset, h, shiftList_length]

lemma applyFillna_length (o : Option PyFloat) (xs : List PyFloat) :
    (applyFillna o xs).length = xs.length := by
  cases o <;> simp [applyFillna, fillnaValue_length]

lemma applyFillMethodOpt_length (o : Option FillMethod) (xs : List PyFloat) :
    (applyFillMethodOpt o xs).length = xs.length := by
  cases o <;> simp [applyFillMethodOpt, applyFillMethod_length]

/-- C1: with a positive window length, a damping constant in the half-open
unit interval, and an input of at least two elements, the output at every
index `i ≥ 1` equals `input[i-1] + (input[i] - input[i-1]) / (c * length *
(input[i] / input[i-1])^4)`, computed from the raw adjacent input pair at
positions `i-1` and `i` and not from a previously computed output; the
nonzero hypotheses on the pair are what makes the formula's quotients
meaningful. -/
theorem mcgd_raw_pair_formula (input : List ℚ) (c : ℚ) (l i : ℕ)
    (hl : 0 < l) (hc0 : 0 < c) (_hc1 : c ≤ 1) (_hlen : 2 ≤ input.length)
    (hi : 1 ≤ i) (a b : ℚ)
    (hja : input.get? (i - 1) = some a) (hjb : input.get? i = some b)
    (ha : a ≠ 0) (hb : b ≠ 0) :
    (mcgdCore c l (input.map PyFloat.fin)).get? i =
      some (.fin (a + (b - a) / (c * l * (b / a) ^ 4))) := by
  obtain ⟨j, rfl⟩ : ∃ j, i = j + 1 := ⟨i - 1, by omega⟩
  simp only [Nat.add_sub_cancel] at hja
  have h1 : (input.map PyFloat.fin).get? j = some (PyFloat.fin a) := by
    rw [List.get?_eq_getElem?, List.getElem?_map, ← List.get?_eq_getElem?, hja]
    rfl
  have h2 : (input.map PyFloat.fin).get? (j + 1) = some (PyFloat.fin b) := by
    rw [List.get?_eq_getElem?, List.getElem?_map, ← List.get?_eq_getElem?, hjb]
    rfl
  rw [mcgdCore_get?_succ, h1, h2]
  show some (mcgVal c l (.fin a) (.fin b)) = _
  rw [mcgVal_fin c l a b hc0 hl ha hb]

/-- C1 witness: the concrete scenario — input `[100, 101, 99]`, length 10,
`c = 1` — where the output at index 2 is built from the raw value 101, and
its exact rational value. -/
theorem mcgd_raw_pair_formula_witness :
    (mcgdCore 1 10 ([100, 101, 99].map PyFloat.fin)).get? 2 =
      some (.fin (101 + (99 - 101) / (1 * 10 * (99 / 101) ^ 4))) ∧
    (101 : ℚ) + (99 - 101) / (1 * 10 * (99 / 101) ^ 4) = 48406038104 / 480298005 := by
  constructor
  · have h := mcgd_raw_pair_formula [100, 101, 99] 1 10 2 (by norm_num) (by norm_num)
      (by norm_num) (by norm_num) (by norm_num) 101 99 rfl rfl (by norm_num) (by norm_num)
    simpa using h
  · norm_num

/-- C2: the output at an index `i ≥ 1` depends only on the input values at
positions `i-1` and `i` and the two parameters: two equal-length inputs
that agree at those two positions have identical outputs at `i`, so
changing any other input element leaves the output at `i` unchanged and
the transform is pairwise, not a running recurrence over prior outputs. -/
theorem mcgd_output_pairwise_independent (c : ℚ) (l : ℕ)
    (xs ys : List PyFloat) (i : ℕ) (hi : 1 ≤ i) (_hlen : xs.length = ys.length)
    (hprev : xs.get? (i - 1) = ys.get? (i - 1)) (hcur : xs.get? i = ys.get? i) :
    (mcgdCore c l xs).get? i = (mcgdCore c l ys).get? i := by
  obtain ⟨j, rfl⟩ : ∃ j, i = j + 1 := ⟨i - 1, by omega⟩
  simp only [Nat.add_sub_cancel] at hprev
  rw [mcgdCore_get?_succ, mcgdCore_get?_succ, hprev, hcur]

/-- C2 witness: mutating the unrelated index 0 (100 to 555) leaves the
output at index 2 unchanged. -/
theorem mcgd_output_pairwise_independent_witness :
    (mcgdCore 1 10 [PyFloat.fin 100, PyFloat.fin 101, PyFloat.fin 99]).get? 2 =
      (mcgdCore 1 10 [PyFloat.fin 555, PyFloat.fin 101, PyFloat.fin 99]).get? 2 :=
  mcgd_output_pairwise_independent 1 10 _ _ 2 (by norm_num) rfl rfl rfl

/-- C3: with a zero (absent) offset and no fill options, whenever the call
yields an output, its first element is exactly the first input element. -/
theorem mcgd_first_output_is_first_input (close : List PyFloat) (len : Option ℤ)
    (c : Option ℚ) (out : List PyFloat)
    (h : mcgd close len none c noKwargs = some out) :
    out.get? 0 = close.get? 0 := by
  by_cases hle : validateLength len ≤ close.length
  · rw [mcgd_eq_some close len none c noKwargs hle] at h
    have hout : out = mcgdCore (validateC c) (validateLength len) close := by
      simpa [noKwargs, applyFillMethodOpt, applyFillna, applyOffset, get_offset]
        using h.symm
    subst hout
    have hpos : 0 < close.length := lt_of_lt_of_le (validateLength_pos len) hle
    cases close with
    | nil => simp at hpos
    | cons x xs => rfl
  · rw [mcgd_eq_none close len none c noKwargs (by omega)] at h
    exact absurd h (by simp)

/-- C3 witness: a one-element series with window length 1. -/
theorem mcgd_first_output_is_first_input_witness :
    ([PyFloat.fin 1] : List PyFloat).get? 0 = ([PyFloat.fin 1] : List PyFloat).get? 0 :=
  mcgd_first_output_is_first_input [PyFloat.fin 1] (some 1) none [PyFloat.fin 1] rfl

/-- C4 counterexample: at the very input the claim names — `[0, 5]` with
`length = 10`, `c = 1` — the core's output at index 1 is the finite value
0, not a non-finite one: the ratio `5/0` is `+inf`, its fourth power makes
the denominator `+inf`, and the correction term `5 / +inf` collapses to 0. -/
theorem mcgd_zero_divisor_finite_counterexample :
    (mcgdCore 1 10 [PyFloat.fin 0, PyFloat.fin 5]).get? 1 = some (PyFloat.fin 0) ∧
    PyFloat.isFinite
      ((mcgdCore 1 10 [PyFloat.fin 0, PyFloat.fin 5]).getD 1 PyFloat.nan) = true := by
  have h : mcgdCore 1 10 [PyFloat.fin 0, PyFloat.fin 5] = [PyFloat.fin 0, PyFloat.fin 0] := by
    have h5 : (0:ℚ) < 5 := by norm_num
    simp [mcgdCore, rollingMcg, mcgWindows, mcgVal, mcg_, PyFloat.div, PyFloat.pow4,
      PyFloat.mul, PyFloat.sub, PyFloat.neg, PyFloat.add, h5]
  rw [h]
  exact ⟨rfl, rfl⟩

/-- C4 (amended): the core computation never raises — it is total, always
yielding one output per input element; degenerate windows follow the IEEE
conventions: a zero previous value with a positive current value makes the
ratio infinite and the output the finite value 0, while a zero current
value with a nonzero previous one makes the denominator zero and the
output non-finite. -/
theorem mcgd_degenerate_values (c : ℚ) (l : ℕ) (hc : 0 < c) (hl : 0 < l) :
    (∀ xs : List PyFloat, (mcgdCore c l xs).length = xs.length) ∧
    (∀ b : ℚ, 0 < b → mcgVal c l (PyFloat.fin 0) (PyFloat.fin b) = PyFloat.fin 0) ∧
    (∀ a : ℚ, 0 < a → mcgVal c l (PyFloat.fin a) (PyFloat.fin 0) = PyFloat.neginf) := by
  have hcl : (0:ℚ) < c * l := mul_pos hc (by exact_mod_cast hl)
  refine ⟨mcgdCore_length c l, ?_, ?_⟩
  · intro b hb
    simp [mcgVal, mcg_, PyFloat.div, PyFloat.pow4, PyFloat.mul, PyFloat.sub,
      PyFloat.neg, PyFloat.add, hb, hb.ne', hcl]
  · intro a ha
    simp [mcgVal, mcg_, PyFloat.div, PyFloat.pow4, PyFloat.mul, PyFloat.sub,
      PyFloat.neg, PyFloat.add, ha, ha.ne', hcl, neg_pos, neg_lt_zero,
      ha.not_lt, asymm ha]

/-- C4 witness: both degenerate windows evaluated at `length = 10`, `c = 1`. -/
theorem mcgd_degenerate_values_witness :
    mcgVal 1 10 (PyFloat.fin 0) (PyFloat.fin 5) = PyFloat.fin 0 ∧
    mcgVal 1 10 (PyFloat.fin 5) (PyFloat.fin 0) = PyFloat.neginf :=
  ⟨(mcgd_degenerate_values 1 10 (by norm_num) (by norm_num)).2.1 5 (by norm_num),
   (mcgd_degenerate_values 1 10 (by norm_num) (by norm_num)).2.2 5 (by norm_num)⟩

lemma validateC_invalid (x : ℚ) (hx : ¬(0 < x ∧ x ≤ 1)) :
    validateC (some x) = validateC (some 1) := by
  simp [validateC, hx]

lemma validateC_none_eq_one : validateC none = validateC (some 1) := by
  simp [validateC]

lemma mcgd_congr_c (close : List PyFloat) (len off : Option ℤ)
    (c₁ c₂ : Option ℚ) (kw : McgdKwargs) (h : validateC c₁ = validateC c₂) :
    mcgd close len off c₁ kw = mcgd close len off c₂ kw := by
  simp only [mcgd, h]

/-- C5: parameter defaulting — a zero, negative or absent `length` behaves
exactly like `length = 10`, and a `c` that is zero, absent, or anywhere
outside the half-open unit interval behaves exactly like `c = 1`. -/
theorem mcgd_parameter_defaulting :
    (∀ (close : List PyFloat) (off : Option ℤ) (c : Option ℚ) (kw : McgdKwargs),
        mcgd close (some 0) off c kw = mcgd close (some 10) off c kw ∧
        mcgd close (some (-5)) off c kw = mcgd close (some 10) off c kw ∧
        mcgd close none off c kw = mcgd close (some 10) off c kw) ∧
    (∀ (close : List PyFloat) (len off : Option ℤ) (kw : McgdKwargs) (x : ℚ),
        ¬(0 < x ∧ x ≤ 1) →
        mcgd close len off (some x) kw = mcgd close len off (some 1) kw ∧
        mcgd close len off none kw = mcgd close len off (some 1) kw) := by
  constructor
  · intro close off c kw
    exact ⟨rfl, rfl, rfl⟩
  · intro close len off kw x hx
    exact ⟨mcgd_congr_c close len off (some x) (some 1) kw (validateC_invalid x hx),
      mcgd_congr_c close len off none (some 1) kw validateC_none_eq_one⟩

/-- C5 witness: `c = 2` lies outside the interval and behaves like `c = 1`. -/
theorem mcgd_parameter_defaulting_witness :
    mcgd [PyFloat.fin 1] (some 1) none (some 2) noKwargs =
      mcgd [PyFloat.fin 1] (some 1) none (some 1) noKwargs :=
  (mcgd_parameter_defaulting.2 [PyFloat.fin 1] (some 1) none noKwargs 2 (by norm_num)).1

/-- C6: whenever the sanitizer accepts the input and the call yields an
output, that output has exactly as many elements as the input, whatever
offset and fill options were supplied. -/
theorem mcgd_preserves_length (close : List PyFloat) (len off : Option ℤ)
    (c : Option ℚ) (kw : McgdKwargs) (out : List PyFloat)
    (h : mcgd close len off c kw = some out) : out.length = close.length := by
  by_cases hle : validateLength len ≤ close.length
  · rw [mcgd_eq_some close len off c kw hle] at h
    obtain rfl := Option.some_inj.mp h
    rw [applyFillMethodOpt_length, applyFillna_length, applyOffset_length, mcgdCore_length]
  · rw [mcgd_eq_none close len off c kw (by omega)] at h
    exact absurd h (by simp)

/-- C6 witness: a call with a nonzero offset and both fill options. -/
theorem mcgd_preserves_length_witness :
    ([PyFloat.fin 7] : List PyFloat).length = ([PyFloat.fin 1] : List PyFloat).length :=
  mcgd_preserves_length [PyFloat.fin 1] (some 1) (some 1) none
    ⟨some (PyFloat.fin 7), some FillMethod.ffill⟩ [PyFloat.fin 7] rfl

/-- C7: when the sanitizer yields no series, the call returns no result —
absence, not an error — without invoking the recurrence. -/
theorem mcgd_none_when_sanitizer_rejects (close : List PyFloat) (len off : Option ℤ)
    (c : Option ℚ) (kw : McgdKwargs)
    (h : verify_series close (validateLength len) = none) :
    mcgd close len off c kw = none := by
  simp only [mcgd, h]

/-- C7 witness: a one-element series is too short for the default window
length 10, so the call yields nothing. -/
theorem mcgd_none_when_sanitizer_rejects_witness :
    mcgd [PyFloat.fin 1] none none none noKwargs = none :=
  mcgd_none_when_sanitizer_rejects [PyFloat.fin 1] none none none noKwargs rfl

/-- C8: a positive offset `k` leaves NaN gaps in the first `k` output
positions and places the computed value of index `i - k` at every later
position `i` (so the last `k` computed values fall out of alignment),
while offset 0 behaves exactly like the absent offset (the identity). -/
theorem mcgd_offset_behaviour :
    (∀ (close : List PyFloat) (len : Option ℤ) (c : Option ℚ) (k : ℕ)
        (out : List PyFloat), 0 < k →
        mcgd close len (some (k : ℤ)) c noKwargs = some out →
        ∀ i : ℕ, i < out.length →
          out.get? i =
            if i < k then some PyFloat.nan
            else (mcgdCore (validateC c) (validateLength len) close).get? (i - k)) ∧
    (∀ (close : List PyFloat) (len : Option ℤ) (c : Option ℚ) (kw : McgdKwargs),
        mcgd close len (some 0) c kw = mcgd close len none c kw) := by
  constructor
  · intro close len c k out hk h i hi
    by_cases hle : validateLength len ≤ close.length
    · rw [mcgd_eq_some close len (some (k : ℤ)) c noKwargs hle] at h
      have hk0 : (k : ℤ) ≠ 0 := by exact_mod_cast hk.ne'
      have hout : out = shiftList (k : ℤ) (mcgdCore (validateC c) (validateLength len) close) := by
        have h' := (Option.some_inj.mp h).symm
        simpa [noKwargs, applyFillMethodOpt, applyFillna, applyOffset, get_offset, hk0]
          using h'
      subst hout
      set core := mcgdCore (validateC c) (validateLength len) close with hcore
      have hi' : i < core.length := by
        rwa [shiftList_length] at hi
      rw [shiftList_get? (k : ℤ) core i hi']
      by_cases hik : i < k
      · rw [if_pos (by omega : (i : ℤ) - k < 0), if_pos hik]
      · rw [if_neg (by omega : ¬ (i : ℤ) - k < 0), if_neg hik]
        have htn : ((i : ℤ) - k).toNat = i - k := by omega
        have hik' : i - k < core.length := by omega
        rw [htn, List.getD_eq_getElem core PyFloat.nan hik',
          List.get?_eq_getElem?, List.getElem?_eq_getElem hik']
    · rw [mcgd_eq_none close len (some (k : ℤ)) c noKwargs (by omega)] at h
      exact absurd h (by simp)
  · intro close len c kw
    rfl

/-- C8 witness: shifting a one-element computed series by 1 puts a NaN gap
in position 0 and drops the computed value. -/
theorem mcgd_offset_behaviour_witness :
    ([PyFloat.nan] : List PyFloat).get? 0 = some PyFloat.nan := by
  have h := mcgd_offset_behaviour.1 [PyFloat.fin 1] (some 1) none 1 [PyFloat.nan]
    (by norm_num) rfl 0 (by norm_num)
  rw [h]
  rfl

/-- C9: a call never mutates the caller's series: the caller's buffer is
only read (once, when `close.copy()` fills the private work buffer the
windows are drawn from), so after the call it holds exactly the values it
held before, and the result is the same as running the pipeline on the
caller's values directly. -/
theorem mcgd_caller_series_unchanged (close : List PyFloat) (len off : Option ℤ)
    (c : Option ℚ) (kw : McgdKwargs) :
    (mcgdCall close len off c kw).2 = close ∧
    (mcgdCall close len off c kw).1 = mcgd close len off c kw := by
  refine ⟨rfl, ?_⟩
  simp [mcgdCall, copyBuffer]

/-- C10: when both a literal fill value and a named fill strategy are
supplied, the literal fill runs first and removes every gap, so the named
strategy finds nothing to do and the result equals the one produced by the
literal fill alone. -/
theorem mcgd_fillna_preempts_fill_method (close : List PyFloat) (len off : Option ℤ)
    (c : Option ℚ) (v : PyFloat) (m : FillMethod) (hv : v ≠ PyFloat.nan) :
    mcgd close len off c ⟨some v, some m⟩ = mcgd close len off c ⟨some v, none⟩ := by
  by_cases hle : validateLength len ≤ close.length
  · rw [mcgd_eq_some close len off c ⟨some v, some m⟩ hle,
      mcgd_eq_some close len off c ⟨some v, none⟩ hle]
    simp only [applyFillMethodOpt, applyFillna]
    rw [applyFillMethod_of_noNaN m _ (fillnaValue_noNaN v hv _)]
  · rw [mcgd_eq_none close len off c ⟨some v, some m⟩ (by omega),
      mcgd_eq_none close len off c ⟨some v, none⟩ (by omega)]

/-- C10 witness: a literal fill of 7 with a forward-fill strategy equals
the literal fill alone, on a shifted one-element series. -/
theorem mcgd_fillna_preempts_fill_method_witness :
    mcgd [PyFloat.fin 1] (some 1) (some 1) none ⟨some (PyFloat.fin 7), some FillMethod.ffill⟩ =
      mcgd [PyFloat.fin 1] (some 1) (some 1) none ⟨some (PyFloat.fin 7), none⟩ :=
  mcgd_fillna_preempts_fill_method [PyFloat.fin 1] (some 1) (some 1) none
    (PyFloat.fin 7) FillMethod.ffill (by decide)
